import Mathlib

/-!
Verification of the `FuseTransposeBrgemm` graph-rewrite pass
(`src/common/snippets/src/pass/fuse_transpose_brgemm.cpp`).

The pass eliminates a `Transpose` node adjacent to a `Brgemm` node by folding
the transpose's permutation into the layout metadata carried on the Brgemm's
input/output port descriptors.  We shallowly embed the pure helpers
(`is_supported_transpose_order`, the `fuse_layouts` lambda) and the rewrite
callback's input/output fusion steps, with `OPENVINO_ASSERT` aborts modelled
as `Option.none`.
-/

namespace FuseTransposeBrgemm

/-- `static_cast<size_t>` applied to an element of the permutation constant,
as in `const_order->cast_vector<size_t>()`: wraps modulo `2^64`. -/
def to_size_t (i : Int) : Nat := (i % ((2 : Int) ^ 64)).toNat

/-- Embedding of `FuseTransposeBrgemm::is_supported_transpose_order`:
`!order.empty() && order.back() == (int32_t)size - 1`.  The vector of
`int32_t` is modelled as `List Int`; `order.back()` is element `size - 1`. -/
def is_supported_transpose_order (order : List Int) : Bool :=
  !order.isEmpty && (order.getD (order.length - 1) 0 == (order.length : Int) - 1)

/-- Modelled from the spec: the producer of an IR value (the IR node classes
`ov::Node`, `Transpose`, `Constant` are external to these sources), as far
as the pass inspects it — either a `Transpose` node (with its own data-input
producer, the shape of that data input, and `some order` when input 1 is a
`Constant`), or any other node. -/
inductive ValueProducer where
  | transpose (data : ValueProducer) (data_shape : List Nat)
      (order : Option (List Int)) : ValueProducer
  | other : ValueProducer
  deriving DecidableEq, Repr

/-- Embedding of `FuseTransposeBrgemm::is_supported_transpose`: false unless
the value is produced by a `Transpose` whose input 1 is a `Constant` whose
vector passes `is_supported_transpose_order`. -/
def is_supported_transpose : ValueProducer → Bool
  | .transpose _ _ (some order) => is_supported_transpose_order order
  | .transpose _ _ none => false
  | .other => false

/-- The loop body of `fuse_layouts`: for each `i`,
`OPENVINO_ASSERT(layout_2[i] < layout_1.size())` (abort = `none`), then
`fused_layout[i] = layout_1[layout_2[i]]`. -/
def fuse_loop (layout_1 : List Nat) : List Nat → Option (List Nat)
  | [] => some []
  | j :: rest =>
    if j < layout_1.length then
      match fuse_loop layout_1 rest with
      | some r => some (layout_1.getD j 0 :: r)
      | none => none
    else none

/-- Embedding of the `fuse_layouts` lambda of the rewrite callback.  An
`OPENVINO_ASSERT` failure (unequal ranks of two non-empty layouts, or an
out-of-range entry) is modelled as `none`. -/
def fuse_layouts (layout_1 layout_2 : List Nat) : Option (List Nat) :=
  if layout_1.isEmpty then some layout_2
  else if layout_2.isEmpty then some layout_1
  else if layout_1.length = layout_2.length then fuse_loop layout_1 layout_2
  else none

/-- A layout/order is a valid permutation of `[0, rank)`: every entry is
below the length and no entry repeats. -/
def is_valid_permutation (l : List Nat) : Prop :=
  (∀ x ∈ l, x < l.length) ∧ l.Nodup

instance (l : List Nat) : Decidable (is_valid_permutation l) := by
  unfold is_valid_permutation; infer_instance

/-- Modelled from the spec: per-value metadata — a shape and a layout — as
held by `lowered::PortDescriptor`, whose definition is external to these
sources; only the fields this pass reads and writes are modelled. -/
structure PortDescriptor where
  shape : List Nat
  layout : List Nat
  deriving DecidableEq, Repr

/-- One Brgemm input as the callback sees it: the producer of the value
currently feeding it, and the port descriptor attached to that input port. -/
structure InputState where
  source : ValueProducer
  port : PortDescriptor
  deriving DecidableEq, Repr

/-- One iteration of the callback's input loop, for one input position: if
the input is produced by a supported transpose, rewire the input to the
transpose's own data input (`set_argument`), set the port's shape to the
transpose's input shape, and set its layout to
`fuse_layouts(transpose_order, in_layout)`.  An assertion failure inside
`fuse_layouts` aborts (`none`). -/
def fuse_input (inp : InputState) : Option InputState :=
  match inp.source with
  | .transpose data data_shape (some order) =>
    if is_supported_transpose_order order then
      (fuse_layouts (order.map to_size_t) inp.port.layout).map
        (fun fused =>
          { source := data, port := { shape := data_shape, layout := fused } })
    else some inp
  | _ => some inp

/-- The callback's input loop over all Brgemm inputs, in order; an abort in
any iteration aborts the whole callback. -/
def fuse_inputs : List InputState → Option (List InputState)
  | [] => some []
  | inp :: rest =>
    match fuse_input inp with
    | some inp2 =>
      match fuse_inputs rest with
      | some rest2 => some (inp2 :: rest2)
      | none => none
    | none => none

/-- Modelled from the spec: the `Transpose` operator's shape semantics
("output dimension i takes data from input dimension permutation[i]").
The Transpose operator's own shape inference is not among this repository's
sources; only its result (`transpose_out.get_partial_shape()`) is read. -/
def apply_perm (perm : List Nat) (shape : List Nat) : List Nat :=
  perm.map (fun p => shape.getD p 0)

/-- Modelled from the spec: a transpose node consuming the Brgemm's output
(node classes external to these sources) — its permutation input (`some`
when it is a `Constant`), the static shape of its output value, and the ids
of the input ports consuming that output. -/
structure OutTranspose where
  order : Option (List Int)
  out_shape : List Nat
  consumers : List Nat
  deriving DecidableEq, Repr

/-- The state the output-fusion branch reads: the Brgemm output port
descriptor, the consumers of the Brgemm output other than the matched
transpose, and the matched transpose itself. -/
structure OutputState where
  port : PortDescriptor
  other_consumers : List Nat
  t : OutTranspose
  deriving DecidableEq, Repr

/-- The state after the output-fusion branch: the updated Brgemm output port
descriptor, the consumers of the Brgemm output, and the consumers still
attached to the transpose's output. -/
structure OutputResult where
  port : PortDescriptor
  brgemm_consumers : List Nat
  transpose_consumers : List Nat
  deriving DecidableEq, Repr

/-- The output-fusion branch of the callback: set the Brgemm output port's
shape to the transpose's output shape, set its layout to
`fuse_layouts(out_layout, transpose_order)`, and rewire every consumer of
the transpose's output to the Brgemm's output, detaching the transpose.
A missing constant order cannot occur for a matched transpose (the pattern
predicate requires it); it is modelled as an abort. -/
def fuse_output (st : OutputState) : Option OutputResult :=
  match st.t.order with
  | none => none
  | some o =>
    (fuse_layouts st.port.layout (o.map to_size_t)).map fun fused =>
      { port := { shape := st.t.out_shape, layout := fused },
        brgemm_consumers := st.other_consumers ++ st.t.consumers,
        transpose_consumers := [] }

/-- Modelled from the spec: a graph instance for the matching engine's
fixed-point scan — one Brgemm with its two inputs, its output port
descriptor, and the chain of transposes consuming its output (head adjacent
to the Brgemm).  The generic pattern-matching engine is an external
collaborator of this pass. -/
structure Graph where
  in0 : InputState
  in1 : InputState
  out_port : PortDescriptor
  out_chain : List OutTranspose
  deriving DecidableEq, Repr

/-- Whether a transpose on the Brgemm output matches the output pattern:
its order input is a `Constant` passing the order check. -/
def out_transpose_eligible (t : OutTranspose) : Bool :=
  match t.order with
  | some o => is_supported_transpose_order o
  | none => false

/-- The output-fusion branch acting on the graph: fuse the transpose
adjacent to the Brgemm output when it is eligible. -/
def fuse_out_head (g : Graph) : Option Graph :=
  match g.out_chain with
  | [] => some g
  | t :: rest =>
    match t.order with
    | some o =>
      if is_supported_transpose_order o then
        match fuse_layouts g.out_port.layout (o.map to_size_t) with
        | some fused =>
          some { g with out_port := { shape := t.out_shape, layout := fused },
                        out_chain := rest }
        | none => none
      else some g
    | none => some g

/-- One callback invocation on the graph: the output branch when its pattern
matched, then the input loop over both inputs. -/
def callback_step (g : Graph) : Option Graph := do
  let g1 ← fuse_out_head g
  let i0 ← fuse_input g1.in0
  let i1 ← fuse_input g1.in1
  some { g1 with in0 := i0, in1 := i1 }

/-- Modelled from the spec: whether any of the three structural patterns
matches the graph. -/
def has_match (g : Graph) : Bool :=
  (match g.out_chain with
   | t :: _ => out_transpose_eligible t
   | [] => false) ||
  is_supported_transpose g.in0.source ||
  is_supported_transpose g.in1.source

/-- Modelled from the spec: the matching engine's fixed-point scan — invoke
the callback while a pattern matches, with explicit fuel; a scan that runs
to completion returns `some` of a graph with no remaining match. -/
def run_pass : Nat → Graph → Option Graph
  | 0, g => if has_match g then none else some g
  | fuel + 1, g =>
    if has_match g then
      match callback_step g with
      | some g2 => run_pass fuel g2
      | none => none
    else some g

/-- A concrete graph for exercising the fixed-point scan: an eligible
transpose on input 0 and an eligible transpose on the output. -/
def gExample : Graph :=
  { in0 := ⟨.transpose .other [2, 3, 4] (some [1, 0, 2]), ⟨[3, 2, 4], []⟩⟩,
    in1 := ⟨.other, ⟨[4, 5, 6], []⟩⟩,
    out_port := ⟨[8, 4, 16], []⟩,
    out_chain := [⟨some [1, 0, 2], [4, 8, 16], [7]⟩] }

/-- The fixed point the scan reaches from `gExample`: both transposes fused
into the port layouts. -/
def gFinal : Graph :=
  { in0 := ⟨.other, ⟨[2, 3, 4], [1, 0, 2]⟩⟩,
    in1 := ⟨.other, ⟨[4, 5, 6], []⟩⟩,
    out_port := ⟨[4, 8, 16], [1, 0, 2]⟩,
    out_chain := [] }

/-- If every entry of `layout_2` is in range, the loop returns the mapped
composition. -/
theorem fuse_loop_eq_map (layout_1 : List Nat) :
    ∀ layout_2 : List Nat, (∀ j ∈ layout_2, j < layout_1.length) →
      fuse_loop layout_1 layout_2 =
        some (layout_2.map (fun j => layout_1.getD j 0))
  | [], _ => rfl
  | j :: rest, h => by
    have hj : j < layout_1.length := h j (List.mem_cons_self j rest)
    have hrest := fuse_loop_eq_map layout_1 rest
      (fun x hx => h x (List.mem_cons_of_mem j hx))
    simp [fuse_loop, hj, hrest]

/-- If some entry of `layout_2` is out of range, the loop aborts. -/
theorem fuse_loop_none (layout_1 : List Nat) :
    ∀ layout_2 : List Nat, (∃ j ∈ layout_2, layout_1.length ≤ j) →
      fuse_loop layout_1 layout_2 = none
  | [], h => absurd h (by simp)
  | j :: rest, h => by
    rcases h with ⟨x, hx, hxe⟩
    rcases List.mem_cons.mp hx with rfl | hx'
    · simp [fuse_loop, Nat.not_lt.mpr hxe]
    · by_cases hj : j < layout_1.length
      · simp [fuse_loop, hj, fuse_loop_none layout_1 rest ⟨x, hx', hxe⟩]
      · simp [fuse_loop, hj]

/-- The empty layout is a left identity for `fuse_layouts`. -/
theorem fuse_layouts_nil_left (l : List Nat) : fuse_layouts [] l = some l := by
  simp [fuse_layouts]

/-- The empty layout is a right identity for `fuse_layouts`. -/
theorem fuse_layouts_nil_right (l : List Nat) : fuse_layouts l [] = some l := by
  by_cases h : l.isEmpty
  · simp [fuse_layouts, h, List.isEmpty_iff.mp h]
  · simp [fuse_layouts, h]

/-- For valid permutations of equal length, `fuse_layouts` succeeds and
computes the entry-wise composition `fun i => layout_1[layout_2[i]]`. -/
theorem fuse_layouts_valid_eq (layout_1 layout_2 : List Nat)
    (h2 : is_valid_permutation layout_2)
    (hlen : layout_1.length = layout_2.length) :
    fuse_layouts layout_1 layout_2 =
      some (layout_2.map (fun j => layout_1.getD j 0)) := by
  rcases h2 with ⟨h2b, -⟩
  by_cases e1 : layout_1.isEmpty
  · have e1' : layout_1 = [] := List.isEmpty_iff.mp e1
    have e2' : layout_2 = [] := by
      have : layout_2.length = 0 := by simp [e1'] at hlen; omega
      exact List.eq_nil_of_length_eq_zero this
    simp [fuse_layouts, e1', e2']
  · by_cases e2 : layout_2.isEmpty
    · have e2' : layout_2 = [] := List.isEmpty_iff.mp e2
      rw [e2'] at hlen
      have : layout_1 = [] := List.eq_nil_of_length_eq_zero (by simpa using hlen)
      simp [this] at e1
    · have hb : ∀ j ∈ layout_2, j < layout_1.length := fun j hj =>
        hlen ▸ h2b j hj
      simp [fuse_layouts, e1, e2, hlen, fuse_loop_eq_map layout_1 layout_2 hb]

/-- `getD` through a `map` at an in-range index. -/
theorem getD_map_lt (l : List Nat) (f : Nat → Nat) (i : Nat)
    (hi : i < l.length) :
    (l.map f).getD i 0 = f (l.getD i 0) := by
  rw [List.getD_eq_getElem _ _ (by simpa using hi),
      List.getD_eq_getElem _ _ hi]
  simp

/-- Composing two valid permutations of equal length yields a valid
permutation of the same length. -/
theorem composed_valid (layout_1 layout_2 : List Nat)
    (h1 : is_valid_permutation layout_1) (h2 : is_valid_permutation layout_2)
    (hlen : layout_1.length = layout_2.length) :
    is_valid_permutation (layout_2.map (fun j => layout_1.getD j 0)) := by
  rcases h1 with ⟨h1b, h1d⟩
  rcases h2 with ⟨h2b, h2d⟩
  constructor
  · intro x hx
    rcases List.mem_map.mp hx with ⟨j, hj, rfl⟩
    have hjlt : j < layout_1.length := hlen ▸ h2b j hj
    rw [List.getD_eq_getElem _ _ hjlt]
    have : layout_1[j] ∈ layout_1 := List.getElem_mem hjlt
    simpa [hlen] using h1b _ this
  · refine List.Nodup.map_on ?_ h2d
    intro x hx y hy hxy
    have hxlt : x < layout_1.length := hlen ▸ h2b x hx
    have hylt : y < layout_1.length := hlen ▸ h2b y hy
    rw [List.getD_eq_getElem _ _ hxlt, List.getD_eq_getElem _ _ hylt] at hxy
    have := (List.Nodup.getElem_inj_iff h1d).mp hxy
    exact this

/-- C3: For every pair of equal-length valid permutations `(outer, inner)`,
`fuse_layouts outer inner` succeeds and its entry at each index `i` equals
`outer[inner[i]]`. -/
theorem fuse_layouts_composition (outer inner : List Nat)
    (h1 : is_valid_permutation outer) (h2 : is_valid_permutation inner)
    (hlen : outer.length = inner.length) :
    ∃ fused, fuse_layouts outer inner = some fused ∧
      fused.length = outer.length ∧
      ∀ i < fused.length, fused.getD i 0 = outer.getD (inner.getD i 0) 0 := by
  refine ⟨inner.map (fun j => outer.getD j 0),
    fuse_layouts_valid_eq outer inner h2 hlen, by simp [hlen], ?_⟩
  intro i hi
  have hi' : i < inner.length := by simpa using hi
  exact getD_map_lt inner _ i hi'

/-- Witness for C3 at `outer = [2, 0, 1]`, `inner = [1, 0, 2]`. -/
theorem fuse_layouts_composition_witness :
    ∃ fused, fuse_layouts [2, 0, 1] [1, 0, 2] = some fused ∧
      fused.length = 3 ∧
      ∀ i < fused.length,
        fused.getD i 0 = List.getD [2, 0, 1] (List.getD [1, 0, 2] i 0) 0 :=
  fuse_layouts_composition [2, 0, 1] [1, 0, 2]
    (by decide) (by decide) (by decide)

/-- C4: the empty layout is a left and right identity for `fuse_layouts` on
any valid permutation `P`. -/
theorem fuse_layouts_identity (P : List Nat) (hP : is_valid_permutation P) :
    fuse_layouts [] P = some P ∧ fuse_layouts P [] = some P :=
  ⟨fuse_layouts_nil_left P, fuse_layouts_nil_right P⟩

/-- Witness for C4 at `P = [1, 0, 2]`. -/
theorem fuse_layouts_identity_witness :
    fuse_layouts [] [1, 0, 2] = some [1, 0, 2] ∧
      fuse_layouts [1, 0, 2] [] = some [1, 0, 2] :=
  fuse_layouts_identity [1, 0, 2] (by decide)

/-- C5: for every non-empty order vector `p`, the check returns true iff the
last element of `p` equals `len(p) - 1`; on the empty vector it returns
false. -/
theorem is_supported_transpose_order_spec (p : List Int) (h : p ≠ []) :
    (is_supported_transpose_order p = true ↔
      p.getD (p.length - 1) 0 = (p.length : Int) - 1) ∧
    is_supported_transpose_order [] = false := by
  refine ⟨?_, rfl⟩
  simp [is_supported_transpose_order, h]

/-- Witness for C5 at `p = [1, 0, 2]`. -/
theorem is_supported_transpose_order_spec_witness :
    (is_supported_transpose_order [1, 0, 2] = true ↔
      List.getD [1, 0, 2] (List.length ([1, 0, 2] : List Int) - 1) 0 =
        (List.length ([1, 0, 2] : List Int) : Int) - 1) ∧
    is_supported_transpose_order [] = false :=
  is_supported_transpose_order_spec [1, 0, 2] (by decide)

/-- C6: for two non-empty layouts, a rank mismatch or an out-of-range entry
makes `fuse_layouts` abort (no truncated result); for equal-length valid
permutations neither assertion fires. -/
theorem fuse_layouts_assert_behaviour (l1 l2 : List Nat)
    (h1 : l1 ≠ []) (h2 : l2 ≠ []) :
    ((l1.length ≠ l2.length ∨ ∃ j ∈ l2, l1.length ≤ j) →
      fuse_layouts l1 l2 = none) ∧
    (is_valid_permutation l1 → is_valid_permutation l2 →
      l1.length = l2.length → (fuse_layouts l1 l2).isSome = true) := by
  have e1 : l1.isEmpty = false := by simpa using h1
  have e2 : l2.isEmpty = false := by simpa using h2
  constructor
  · rintro (hne | hoob)
    · simp [fuse_layouts, e1, e2, hne]
    · by_cases hlen : l1.length = l2.length
      · simp [fuse_layouts, e1, e2, hlen, fuse_loop_none l1 l2 hoob]
      · simp [fuse_layouts, e1, e2, hlen]
  · intro hv1 hv2 hlen
    rw [fuse_layouts_valid_eq l1 l2 hv2 hlen]
    rfl

/-- Witness for C6 at `l1 = [1, 0, 2]`, `l2 = [2, 1, 0]`. -/
theorem fuse_layouts_assert_behaviour_witness :
    ((List.length [1, 0, 2] ≠ List.length [2, 1, 0] ∨
        ∃ j ∈ [2, 1, 0], List.length [1, 0, 2] ≤ j) →
      fuse_layouts [1, 0, 2] [2, 1, 0] = none) ∧
    (is_valid_permutation [1, 0, 2] → is_valid_permutation [2, 1, 0] →
      List.length [1, 0, 2] = List.length [2, 1, 0] →
      (fuse_layouts [1, 0, 2] [2, 1, 0]).isSome = true) :=
  fuse_layouts_assert_behaviour [1, 0, 2] [2, 1, 0] (by decide) (by decide)

/-- C7: the value-level check returns true exactly when the value is produced
by a `Transpose` whose permutation input is a constant passing the order
check, and false in every other case (no exception, no side effect). -/
theorem is_supported_transpose_spec (p : ValueProducer) :
    is_supported_transpose p = true ↔
      ∃ data data_shape order,
        p = .transpose data data_shape (some order) ∧
        is_supported_transpose_order order = true := by
  cases p with
  | transpose d ds ord =>
    cases ord with
    | some o =>
      simp only [is_supported_transpose]
      constructor
      · intro h
        exact ⟨d, ds, o, rfl, h⟩
      · rintro ⟨data, dsh, ord, heq, hord⟩
        cases heq
        exact hord
    | none => simp [is_supported_transpose]
  | other => simp [is_supported_transpose]

/-- Witness for C7 at a transpose with constant order `[1, 0, 2]`. -/
theorem is_supported_transpose_spec_witness :
    is_supported_transpose (.transpose .other [2, 3, 4] (some [1, 0, 2])) =
      true :=
  (is_supported_transpose_spec _).mpr
    ⟨.other, [2, 3, 4], [1, 0, 2], rfl, by decide⟩

/-- C10: the order check inspects only the length and the last element: any
non-empty vector whose last element is `len - 1` passes, permutation or not,
and overwriting a non-last element never changes the result. -/
theorem order_check_inspects_only_last (v : List Int) (x : Int) (i : Nat)
    (hne : v ≠ []) (hi : i + 1 < v.length) :
    (v.getD (v.length - 1) 0 = (v.length : Int) - 1 →
      is_supported_transpose_order v = true) ∧
    is_supported_transpose_order (v.set i x) =
      is_supported_transpose_order v := by
  constructor
  · intro hlast
    unfold is_supported_transpose_order
    rw [hlast]
    simp [hne]
  · have hne' : v.set i x ≠ [] := by
      intro hc
      exact hne (by simpa using congrArg List.length hc)
    have hij : i ≠ v.length - 1 := by omega
    have hgd : (v.set i x).getD (v.length - 1) 0 = v.getD (v.length - 1) 0 := by
      rw [List.getD_eq_getElem?_getD, List.getD_eq_getElem?_getD,
        List.getElem?_set_ne hij]
    have hE1 : (v.set i x).isEmpty = false := by simpa using hne'
    have hE2 : v.isEmpty = false := by simpa using hne
    simp only [is_supported_transpose_order, List.length_set, hgd, hE1, hE2]

/-- Witness for C10 at the non-permutation vector `[0, 0, 2]` with position 0
overwritten by 5. -/
theorem order_check_inspects_only_last_witness :
    (List.getD ([0, 0, 2] : List Int)
        (List.length ([0, 0, 2] : List Int) - 1) 0 =
        (List.length ([0, 0, 2] : List Int) : Int) - 1 →
      is_supported_transpose_order [0, 0, 2] = true) ∧
    is_supported_transpose_order (List.set [0, 0, 2] 0 5) =
      is_supported_transpose_order [0, 0, 2] :=
  order_check_inspects_only_last [0, 0, 2] 5 0 (by decide) (by decide)

/-- The input loop acts independently and position-wise on the inputs. -/
theorem fuse_inputs_length_get : ∀ (l l' : List InputState),
    fuse_inputs l = some l' →
    l'.length = l.length ∧
    ∀ (i : Nat) (hi : i < l.length) (hi' : i < l'.length),
      fuse_input (l.get ⟨i, hi⟩) = some (l'.get ⟨i, hi'⟩)
  | [], l', h => by
    have : l' = [] := by simpa [fuse_inputs] using h.symm
    subst this
    exact ⟨rfl, fun i hi _ => absurd hi (by simp)⟩
  | inp :: rest, l', h => by
    unfold fuse_inputs at h
    cases hh : fuse_input inp with
    | none => rw [hh] at h; exact absurd h (by simp)
    | some v =>
      rw [hh] at h
      cases hr : fuse_inputs rest with
      | none => rw [hr] at h; exact absurd h (by simp)
      | some rest2 =>
        rw [hr] at h
        have hl : l' = v :: rest2 := by simpa using h.symm
        subst hl
        have ih := fuse_inputs_length_get rest rest2 hr
        refine ⟨by simp [ih.1], ?_⟩
        intro i hi hi'
        cases i with
        | zero => simpa using hh
        | succ n =>
          have hn : n < rest.length := by simpa using hi
          have hn' : n < rest2.length := by simpa using hi'
          simpa using ih.2 n hn hn'

/-- C1: the input loop rewires each transposed input to the transpose's data
input, sets the port descriptor's shape to the transpose's input shape and
its layout to `fuse_layouts(transpose_order, prior_layout)`; the loop acts
independently per input position, so a Brgemm with both inputs transposed is
fused in one invocation (concretely with permutation `[1, 0, 2]` and no
prior layout, the resulting layout is `[1, 0, 2]` on both inputs). -/
theorem input_fusion_spec (l l' : List InputState)
    (h : fuse_inputs l = some l') :
    (l'.length = l.length ∧
      ∀ (i : Nat) (hi : i < l.length) (hi' : i < l'.length),
        fuse_input (l.get ⟨i, hi⟩) = some (l'.get ⟨i, hi'⟩)) ∧
    (∀ (inp res : InputState) (data : ValueProducer) (ds : List Nat)
        (ord : List Int),
        inp.source = .transpose data ds (some ord) →
        is_supported_transpose_order ord = true →
        fuse_input inp = some res →
        res.source = data ∧ res.port.shape = ds ∧
        fuse_layouts (ord.map to_size_t) inp.port.layout =
          some res.port.layout) ∧
    fuse_inputs
        [⟨.transpose .other [2, 3, 4] (some [1, 0, 2]), ⟨[3, 2, 4], []⟩⟩,
         ⟨.transpose .other [5, 6, 7] (some [1, 0, 2]), ⟨[6, 5, 7], []⟩⟩] =
      some [⟨.other, ⟨[2, 3, 4], [1, 0, 2]⟩⟩,
            ⟨.other, ⟨[5, 6, 7], [1, 0, 2]⟩⟩] := by
  refine ⟨fuse_inputs_length_get l l' h, ?_, by decide⟩
  intro inp res data ds ord hsrc hord hfi
  rcases inp with ⟨src, port⟩
  simp only at hsrc
  subst hsrc
  simp only [fuse_input, hord, if_true] at hfi
  cases hfl : fuse_layouts (ord.map to_size_t) port.layout with
  | none => rw [hfl] at hfi; simp at hfi
  | some fused =>
    rw [hfl] at hfi
    have hres :
        ({ source := data, port := { shape := ds, layout := fused } } :
          InputState) = res := by
      simpa using hfi
    subst hres
    exact ⟨rfl, rfl, rfl⟩

/-- Witness for C1: the input loop on the two-transposed-inputs example. -/
theorem input_fusion_spec_witness :
    fuse_inputs
        [⟨.transpose .other [2, 3, 4] (some [1, 0, 2]), ⟨[3, 2, 4], []⟩⟩,
         ⟨.transpose .other [5, 6, 7] (some [1, 0, 2]), ⟨[6, 5, 7], []⟩⟩] =
      some [⟨.other, ⟨[2, 3, 4], [1, 0, 2]⟩⟩,
            ⟨.other, ⟨[5, 6, 7], [1, 0, 2]⟩⟩] :=
  (input_fusion_spec
    [⟨.transpose .other [2, 3, 4] (some [1, 0, 2]), ⟨[3, 2, 4], []⟩⟩,
     ⟨.transpose .other [5, 6, 7] (some [1, 0, 2]), ⟨[6, 5, 7], []⟩⟩]
    [⟨.other, ⟨[2, 3, 4], [1, 0, 2]⟩⟩, ⟨.other, ⟨[5, 6, 7], [1, 0, 2]⟩⟩]
    (by decide)).2.2

/-- C2: the output-fusion branch sets the Brgemm output descriptor's shape
to the transpose's output shape, its layout to
`fuse_layouts(prior_layout, transpose_order)`, rewires every consumer of the
transpose's output to the Brgemm's output, and detaches the transpose;
concretely, from prior shape `[8, 4, 16]`, prior layout `[]` and permutation
`[0, 2, 1]`, the resulting layout is `[0, 2, 1]` and the resulting shape is
`[8, 16, 4]`. -/
theorem output_fusion_spec (st : OutputState) (o : List Int)
    (res : OutputResult) (hord : st.t.order = some o)
    (h : fuse_output st = some res) :
    res.port.shape = st.t.out_shape ∧
    fuse_layouts st.port.layout (o.map to_size_t) = some res.port.layout ∧
    res.brgemm_consumers = st.other_consumers ++ st.t.consumers ∧
    res.transpose_consumers = [] ∧
    fuse_output
        { port := { shape := [8, 4, 16], layout := [] },
          other_consumers := [],
          t := { order := some [0, 2, 1],
                 out_shape := apply_perm (List.map to_size_t [0, 2, 1])
                   [8, 4, 16],
                 consumers := [7, 9] } } =
      some { port := { shape := [8, 16, 4], layout := [0, 2, 1] },
             brgemm_consumers := [7, 9],
             transpose_consumers := [] } := by
  rcases st with ⟨port, oc, t⟩
  rcases t with ⟨tord, tos, tcons⟩
  simp only at hord
  subst hord
  simp only [fuse_output] at h
  cases hfl : fuse_layouts port.layout (o.map to_size_t) with
  | none => rw [hfl] at h; simp at h
  | some fused =>
    rw [hfl] at h
    have hres :
        ({ port := { shape := tos, layout := fused },
            brgemm_consumers := oc ++ tcons,
            transpose_consumers := [] } : OutputResult) = res := by
      simpa using h
    subst hres
    exact ⟨rfl, rfl, rfl, rfl, by decide⟩

/-- Witness for C2: output fusion on the concrete `[0, 2, 1]` example. -/
theorem output_fusion_spec_witness :
    fuse_output
        { port := { shape := [8, 4, 16], layout := [] },
          other_consumers := [],
          t := { order := some [0, 2, 1],
                 out_shape := apply_perm (List.map to_size_t [0, 2, 1])
                   [8, 4, 16],
                 consumers := [7, 9] } } =
      some { port := { shape := [8, 16, 4], layout := [0, 2, 1] },
             brgemm_consumers := [7, 9],
             transpose_consumers := [] } :=
  (output_fusion_spec
    { port := { shape := [8, 4, 16], layout := [] },
      other_consumers := [],
      t := { order := some [0, 2, 1],
             out_shape := apply_perm (List.map to_size_t [0, 2, 1]) [8, 4, 16],
             consumers := [7, 9] } }
    [0, 2, 1]
    { port := { shape := [8, 16, 4], layout := [0, 2, 1] },
      brgemm_consumers := [7, 9], transpose_consumers := [] }
    rfl (by decide)).2.2.2.2

/-- C8: whenever a fusion is performed (input or output) and the prior
layout is empty or a valid permutation of the same rank as the transpose's
permutation, the fusion succeeds and the resulting port layout is still a
valid permutation of `[0, rank)` whose rank equals the rank of the updated
shape. -/
theorem fusion_layout_invariant :
    (∀ (inp : InputState) (data : ValueProducer) (ds : List Nat)
        (ord : List Int),
      inp.source = .transpose data ds (some ord) →
      is_supported_transpose_order ord = true →
      is_valid_permutation (ord.map to_size_t) →
      ds.length = ord.length →
      (inp.port.layout = [] ∨
        (is_valid_permutation inp.port.layout ∧
          inp.port.layout.length = ord.length)) →
      ∃ res, fuse_input inp = some res ∧
        is_valid_permutation res.port.layout ∧
        res.port.layout.length = res.port.shape.length) ∧
    (∀ (st : OutputState) (o : List Int),
      st.t.order = some o →
      is_valid_permutation (o.map to_size_t) →
      st.t.out_shape.length = o.length →
      (st.port.layout = [] ∨
        (is_valid_permutation st.port.layout ∧
          st.port.layout.length = o.length)) →
      ∃ res, fuse_output st = some res ∧
        is_valid_permutation res.port.layout ∧
        res.port.layout.length = res.port.shape.length) := by
  have hmaplen : ∀ (ord : List Int), (ord.map to_size_t).length = ord.length :=
    fun ord => List.length_map ord to_size_t
  constructor
  · intro inp data ds ord hsrc hord hvord hdslen hprior
    rcases inp with ⟨src, port⟩
    simp only at hsrc
    subst hsrc
    rcases hprior with hemp | ⟨hval, hplen⟩
    · simp only at hemp
      refine ⟨⟨data, ds, ord.map to_size_t⟩, ?_, hvord, ?_⟩
      · simp only [fuse_input, hord, if_true, hemp, fuse_layouts_nil_right]
        rfl
      · simp [hmaplen, hdslen]
    · simp only at hval hplen
      have hlen2 : (ord.map to_size_t).length = port.layout.length := by
        rw [hmaplen, ← hplen]
      refine ⟨⟨data, ds,
          port.layout.map (fun j => (ord.map to_size_t).getD j 0)⟩, ?_, ?_, ?_⟩
      · simp only [fuse_input, hord, if_true,
          fuse_layouts_valid_eq (ord.map to_size_t) port.layout hval hlen2]
        rfl
      · exact composed_valid (ord.map to_size_t) port.layout hvord hval hlen2
      · simp [hplen, hdslen]
  · intro st o hord hvord hoslen hprior
    rcases st with ⟨port, oc, t⟩
    rcases t with ⟨tord, tos, tcons⟩
    simp only at hord hoslen hprior
    subst hord
    rcases hprior with hemp | ⟨hval, hplen⟩
    · refine ⟨⟨⟨tos, o.map to_size_t⟩, oc ++ tcons, []⟩, ?_, hvord, ?_⟩
      · simp only [fuse_output, hemp, fuse_layouts_nil_left]
        rfl
      · simp [hmaplen, hoslen]
    · have hlen2 : port.layout.length = (o.map to_size_t).length := by
        rw [hmaplen, hplen]
      refine ⟨⟨⟨tos,
          (o.map to_size_t).map (fun j => port.layout.getD j 0)⟩,
          oc ++ tcons, []⟩, ?_, ?_, ?_⟩
      · simp only [fuse_output,
          fuse_layouts_valid_eq port.layout (o.map to_size_t) hvord hlen2]
        rfl
      · exact composed_valid port.layout (o.map to_size_t) hval hvord hlen2
      · simp [hmaplen, hoslen]

/-- Witness for C8: an input fusion with no prior layout and an output
fusion with a valid prior layout, both with permutation `[1, 0, 2]`. -/
theorem fusion_layout_invariant_witness :
    (∃ res,
      fuse_input ⟨.transpose .other [2, 3, 4] (some [1, 0, 2]),
          ⟨[3, 2, 4], []⟩⟩ = some res ∧
        is_valid_permutation res.port.layout ∧
        res.port.layout.length = res.port.shape.length) ∧
    (∃ res,
      fuse_output ⟨⟨[8, 4, 16], [2, 0, 1]⟩, [],
          ⟨some [1, 0, 2], [4, 8, 16], [7]⟩⟩ = some res ∧
        is_valid_permutation res.port.layout ∧
        res.port.layout.length = res.port.shape.length) :=
  ⟨fusion_layout_invariant.1
      ⟨.transpose .other [2, 3, 4] (some [1, 0, 2]), ⟨[3, 2, 4], []⟩⟩
      .other [2, 3, 4] [1, 0, 2] rfl (by decide) (by decide) (by decide)
      (Or.inl rfl),
    fusion_layout_invariant.2
      ⟨⟨[8, 4, 16], [2, 0, 1]⟩, [], ⟨some [1, 0, 2], [4, 8, 16], [7]⟩⟩
      [1, 0, 2] rfl (by decide) (by decide)
      (Or.inr ⟨by decide, by decide⟩)⟩

/-- A completed scan leaves no match in the graph. -/
theorem run_pass_no_match : ∀ (fuel : Nat) (g g' : Graph),
    run_pass fuel g = some g' → has_match g' = false
  | 0, g, g', h => by
    unfold run_pass at h
    by_cases hm : has_match g = true
    · simp [hm] at h
    · have hg : g = g' := by simpa [hm] using h
      subst hg
      simpa using hm
  | fuel + 1, g, g', h => by
    unfold run_pass at h
    by_cases hm : has_match g = true
    · rw [if_pos hm] at h
      cases hc : callback_step g with
      | none => rw [hc] at h; exact absurd h (by simp)
      | some g2 =>
        rw [hc] at h
        exact run_pass_no_match fuel g2 g' h
    · have hg : g = g' := by simpa [hm] using h
      subst hg
      simpa using hm

/-- C9: once a fixed-point scan has run to completion, the resulting graph
has no remaining eligible transpose adjacent to the Brgemm, so a second run
of the pass performs no mutation. -/
theorem pass_idempotent (fuel fuel2 : Nat) (g g' : Graph)
    (h : run_pass fuel g = some g') :
    has_match g' = false ∧ run_pass fuel2 g' = some g' := by
  have hnm := run_pass_no_match fuel g g' h
  refine ⟨hnm, ?_⟩
  cases fuel2 with
  | zero => simp [run_pass, hnm]
  | succ n => simp [run_pass, hnm]

/-- Witness for C9: the scan from `gExample` completes in two steps at
`gFinal`, and a second run leaves `gFinal` unchanged. -/
theorem pass_idempotent_witness :
    has_match gFinal = false ∧ run_pass 5 gFinal = some gFinal :=
  pass_idempotent 2 5 gExample gFinal (by decide)

end FuseTransposeBrgemm
